import Mathlib

/-!
# Verification of the soundealer DSP core

Shallow embedding of the DSP / offline-render routines of the soundealer
repository (AudioUtils.js and the export / freeze steps of AudioPlayer.js),
together with proofs of the specified properties.

Audio buffers are modelled as a sample rate plus per-channel lists of
samples; float samples are modelled as exact rationals.  Web Audio graph
rendering (`OfflineAudioContext.startRendering`) is not application code:
it is treated as an opaque function of the constructed graph, assumed only
to preserve the shape (channel count and frame count) of its input clip.
-/

set_option maxHeartbeats 1000000

namespace Soundealer

/-- An audio buffer: sample rate and per-channel sample data
(channel `c` is `data[c]`, a list of samples).  Mirrors the parts of the
native `AudioBuffer` the code reads. -/
structure Buf where
  sampleRate : ℕ
  data : List (List ℚ)
  deriving DecidableEq

/-- `AudioBuffer.numberOfChannels`. -/
def Buf.numberOfChannels (b : Buf) : ℕ := b.data.length

/-- `AudioBuffer.length` (frames per channel; channels of a well-formed
buffer all have this length). -/
def Buf.length (b : Buf) : ℕ := (b.data.headD []).length

/-! ## WAV encoding (AudioUtils.js `bufferToWave`, lines 26-71) -/

/-- JavaScript `ToInt16`-style truncation toward zero (the integer part
kept when a float is stored into an `Int16Array`). -/
def jsTrunc (q : ℚ) : ℤ := if 0 ≤ q then ⌊q⌋ else ⌈q⌉

/-- Two little-endian bytes of an unsigned 16-bit store (`setUint16`). -/
def u16le (n : ℕ) : List ℕ := [n % 256, n / 256 % 256]

/-- Four little-endian bytes of an unsigned 32-bit store (`setUint32`). -/
def u32le (n : ℕ) : List ℕ :=
  [n % 256, n / 256 % 256, n / 65536 % 256, n / 16777216 % 256]

/-- Two little-endian bytes of a 16-bit integer store (`Int16Array`
element write): two's-complement wrap mod 2^16, low byte first. -/
def i16le (v : ℤ) : List ℕ := u16le (v % 65536).toNat

/-- Sample conversion of `bufferToWave`: clamp to [-1, 1]
(`Math.max(-1, Math.min(1, sample))`), then
`sample < 0 ? sample * 0x8000 : sample * 0x7FFF`, truncated by the
`Int16Array` store. -/
def sampleToI16 (s : ℚ) : ℤ :=
  let sample := max (-1) (min 1 s)
  if sample < 0 then jsTrunc (sample * 0x8000) else jsTrunc (sample * 0x7FFF)

/-- The 44-byte RIFF/WAVE/fmt /data header written by `bufferToWave`
(byte values of the magic strings spelled out). -/
def wavHeader (numOfChan sampleRate lengthInBytes : ℕ) : List ℕ :=
  [82, 73, 70, 70] ++ u32le (36 + lengthInBytes) ++
  [87, 65, 86, 69] ++ [102, 109, 116, 32] ++
  u32le 16 ++ u16le 1 ++ u16le numOfChan ++ u32le sampleRate ++
  u32le (sampleRate * 2 * numOfChan) ++ u16le (numOfChan * 2) ++ u16le 16 ++
  [100, 97, 116, 97] ++ u32le lengthInBytes

/-- `bufferToWave(abuffer, len)` (AudioUtils.js lines 26-71): header then
channel-interleaved 16-bit PCM frames.  `len || abuffer.length` is the
falsy-default on the optional length override; a channel read past its
end (JS `undefined`, converted to 0 by the `Int16Array` store) is
modelled by the default 0 of `getD`. -/
def bufferToWave (abuffer : Buf) (len : ℕ) : List ℕ :=
  let numOfChan := abuffer.numberOfChannels
  let length := if len = 0 then abuffer.length else len
  let lengthInBytes := length * numOfChan * 2
  wavHeader numOfChan abuffer.sampleRate lengthInBytes ++
    (List.range length).flatMap (fun i =>
      abuffer.data.flatMap (fun ch => i16le (sampleToI16 (ch.getD i 0))))

/-- Little-endian unsigned 16-bit read of a byte list at `off`. -/
def readU16 (bytes : List ℕ) (off : ℕ) : ℕ :=
  bytes.getD off 0 + 256 * bytes.getD (off + 1) 0

/-- Little-endian unsigned 32-bit read of a byte list at `off`. -/
def readU32 (bytes : List ℕ) (off : ℕ) : ℕ :=
  bytes.getD off 0 + 256 * bytes.getD (off + 1) 0 +
  65536 * bytes.getD (off + 2) 0 + 16777216 * bytes.getD (off + 3) 0

/-- Little-endian signed 16-bit read of a byte list at `off`. -/
def readI16 (bytes : List ℕ) (off : ℕ) : ℤ :=
  let u := readU16 bytes off
  if u < 32768 then (u : ℤ) else (u : ℤ) - 65536

/-! ## Buffer slicing (AudioUtils.js `sliceBuffer`, lines 81-95) -/

/-- `sliceBuffer(buffer, startRatio, endRatio, context)`: extracts frames
`[floor(startRatio*N), floor(endRatio*N))` per channel; returns `none`
(JS `null`) when the frame count is ≤ 0.  The fresh buffer created by
`context.createBuffer` is zero-initialised and `copyToChannel` copies the
slice, so a short slice is padded with zeros. -/
def sliceBuffer (buffer : Buf) (startRatio endRatio : ℚ) : Option Buf :=
  let startFrame : ℤ := ⌊startRatio * (buffer.length : ℚ)⌋
  let endFrame : ℤ := ⌊endRatio * (buffer.length : ℚ)⌋
  let frameCount : ℤ := endFrame - startFrame
  if frameCount ≤ 0 then none
  else some
    { sampleRate := buffer.sampleRate
      data := buffer.data.map (fun ch =>
        let s := (ch.drop startFrame.toNat).take (endFrame.toNat - startFrame.toNat)
        s ++ List.replicate (frameCount.toNat - s.length) 0) }

/-! ## Distortion curve (AudioUtils.js `makeDistortionCurve`, lines 106-116) -/

/-- The exact rational value of the IEEE-754 double `Math.PI`. -/
def mathPI : ℚ := 884279719003555 / 281474976710656

/-- `makeDistortionCurve(amount)`: a 44100-entry waveshaper table;
`typeof amount === 'number' ? amount : 50` is modelled by the `Option`
argument (a non-number argument is `none`). -/
def makeDistortionCurve (amount : Option ℚ) : List ℚ :=
  let k : ℚ := match amount with | some a => a | none => 50
  let n_samples : ℕ := 44100
  let deg : ℚ := mathPI / 180
  (List.range n_samples).map (fun i : ℕ =>
    ((3 + k) * (((i : ℚ) * 2) / (n_samples : ℚ) - 1) * 20 * deg) /
      (mathPI + k * |((i : ℚ) * 2) / (n_samples : ℚ) - 1|))

/-! ## Bitcrush (AudioUtils.js `applyMathBitcrush`, lines 126-147) -/

/-- The per-channel loop of `applyMathBitcrush`: at each index `i` with
`i % stepSize === 0` the sample is quantized
(`Math.round(sample * stepScale) * step`) and latched into `lastSample`;
every output sample is the latched value (sample & hold).  For a
nonnegative JS index, `i % stepSize === 0` holds exactly when `stepSize`
is nonzero and divides `i` (with `stepSize = 0` the JS remainder is
`NaN`, never equal to 0). -/
def bitcrushGo (step stepScale : ℚ) (stepSize : ℤ) : ℕ → ℚ → List ℚ → List ℚ
  | _, _, [] => []
  | i, lastSample, d :: rest =>
    let ls := if stepSize ≠ 0 ∧ (i : ℤ) % stepSize = 0
      then (round (d * stepScale) : ℚ) * step else lastSample
    ls :: bitcrushGo step stepScale stepSize (i + 1) ls rest

/-- `applyMathBitcrush(buffer, bits, normFreq)`: per channel, amplitude
quantization to `2^bits` levels plus sample-and-hold over
`floor(1 / normFreq)` frames. -/
def applyMathBitcrush (buffer : Buf) (bits : ℤ) (normFreq : ℚ) : Buf :=
  let step : ℚ := 1 / 2 ^ bits
  let stepScale : ℚ := 1 / step
  let stepSize : ℤ := ⌊1 / normFreq⌋
  { buffer with data := buffer.data.map (fun data => bitcrushGo step stepScale stepSize 0 0 data) }

/-! ## Range reversal (AudioUtils.js `reverseRange`, lines 161-178) -/

/-- In-place reversal of the index range `[s, e)` of a list (the
`subarray(startFrame, endFrame).reverse()` call on a full copy; like the
JS `subarray`, out-of-range bounds clamp to the list length). -/
def reverseSeg (l : List ℚ) (s e : ℕ) : List ℚ :=
  l.take s ++ ((l.drop s).take (e - s)).reverse ++ l.drop e

/-- `reverseRange(buffer, startTime, endTime, context)`: copies the full
buffer and reverses sample order within the derived frame range, per
channel, only when `endFrame > startFrame`. -/
def reverseRange (buffer : Buf) (startTime endTime : ℚ) : Buf :=
  let startFrame : ℤ := ⌊startTime * (buffer.sampleRate : ℚ)⌋
  let endFrame : ℤ := ⌊endTime * (buffer.sampleRate : ℚ)⌋
  { sampleRate := buffer.sampleRate
    data := buffer.data.map (fun ch =>
      if startFrame < endFrame then reverseSeg ch startFrame.toNat endFrame.toNat else ch) }

/-! ## Offline effect rendering (AudioUtils.js `renderOfflineEffect`, lines 190-259) -/

/-- The effect types routed through `renderOfflineEffect`. -/
inductive EffectType
  | distortion
  | delay
  | bitcrush
  deriving DecidableEq

/-- The `params` object of `renderOfflineEffect` / `freezeCurrentEffect`;
a field a caller did not pass (JS `undefined`) is `none`. -/
structure EffectParams where
  amount : Option ℚ := none
  time : Option ℚ := none
  feedback : Option ℚ := none
  bits : Option ℤ := none
  normFreq : Option ℚ := none
  volume : Option ℚ := none
  deriving DecidableEq

/-- JS `v || dflt` on an optional number: `undefined` and `0` are falsy
and fall back to the default. -/
def jsOrQ (v : Option ℚ) (dflt : ℚ) : ℚ :=
  match v with
  | none => dflt
  | some x => if x = 0 then dflt else x

/-- JS `v || dflt` on an optional integer. -/
def jsOrZ (v : Option ℤ) (dflt : ℤ) : ℤ :=
  match v with
  | none => dflt
  | some x => if x = 0 then dflt else x

/-- The disposable offline node graph built by `renderOfflineEffect`
(lines 212-238), by effect type: a waveshaper with a distortion curve, a
dry path plus delay/feedback loop, or a straight connection (bitcrush,
whose quantization is applied as a post-processing pass). -/
inductive OfflineGraph
  | distortion (curve : List ℚ)
  | delay (delayTime feedbackGain : ℚ)
  | direct
  deriving DecidableEq

/-- Graph construction of `renderOfflineEffect`: `distortion` uses
`makeDistortionCurve(params.amount)`; `delay` uses
`params.time || 0.3` and `params.feedback || 0.5` (falsy fallback);
`bitcrush` connects source to destination directly. -/
def buildOfflineGraph (effectType : EffectType) (params : EffectParams) : OfflineGraph :=
  match effectType with
  | .distortion => .distortion (makeDistortionCurve params.amount)
  | .delay => .delay (jsOrQ params.time (3/10)) (jsOrQ params.feedback (1/2))
  | .bitcrush => .direct

/-- Clip extraction of `renderOfflineEffect` (lines 206-209):
`getChannelData(c).slice(startFrame, endFrame)` copied into a fresh
zero-initialised buffer of `lengthFrame` frames. -/
def extractClip (originalBuffer : Buf) (startFrame endFrame lengthFrame : ℕ) : Buf :=
  { sampleRate := originalBuffer.sampleRate
    data := originalBuffer.data.map (fun ch =>
      let s := (ch.drop startFrame).take (endFrame - startFrame)
      s ++ List.replicate (lengthFrame - s.length) 0) }

/-- `TypedArray.set(src, offset)`: overwrite `dst` with `src` starting at
`offset` (callers keep `offset + src.length ≤ dst.length`). -/
def writeAt (dst src : List ℚ) (offset : ℕ) : List ℚ :=
  dst.take offset ++ src ++ dst.drop (offset + src.length)

/-- `renderOfflineEffect(originalBuffer, regionStart, regionEnd,
effectType, params)` (lines 190-259), with the offline rendering of the
constructed graph abstracted as `graphRender`.  Steps: derive the frame
range; return the original buffer on a non-positive frame count; extract
the clip; render the graph; for `bitcrush` post-process with
`applyMathBitcrush(clip, params.bits || 8, params.normFreq || 0.5)`;
splice the processed clip over a copy of the original buffer at
`startFrame` (`data.set(original); data.set(processedClip, startFrame)`,
which for channels of equal full length is `writeAt`). -/
def renderOfflineEffect (graphRender : OfflineGraph → Buf → Buf) (originalBuffer : Buf)
    (regionStart regionEnd : ℚ) (effectType : EffectType) (params : EffectParams) : Buf :=
  let sampleRate := originalBuffer.sampleRate
  let startFrame : ℤ := ⌊regionStart * (sampleRate : ℚ)⌋
  let endFrame : ℤ := ⌊regionEnd * (sampleRate : ℚ)⌋
  let lengthFrame : ℤ := endFrame - startFrame
  if lengthFrame ≤ 0 then originalBuffer
  else
    let tempBuffer := extractClip originalBuffer startFrame.toNat endFrame.toNat lengthFrame.toNat
    let rendered := graphRender (buildOfflineGraph effectType params) tempBuffer
    let processedClip :=
      if effectType = .bitcrush then
        applyMathBitcrush rendered (jsOrZ params.bits 8) (jsOrQ params.normFreq (1/2))
      else rendered
    { sampleRate := originalBuffer.sampleRate
      data := (List.range originalBuffer.numberOfChannels).map (fun c =>
        writeAt (originalBuffer.data.getD c []) (processedClip.data.getD c []) startFrame.toNat) }

/-! ## Export normalization (AudioPlayer.js `getProcessedWavBlob`, lines 1372-1431) -/

/-- The peak scan of `getProcessedWavBlob` (lines 1413-1419):
`if (Math.abs(data[i]) > maxPeak) maxPeak = Math.abs(data[i])` over every
sample of every channel, starting from 0. -/
def maxPeak (renderedBuffer : Buf) : ℚ :=
  renderedBuffer.data.foldl (fun acc data =>
    data.foldl (fun m x => if |x| > m then |x| else m) acc) 0

/-- The normalization step of `getProcessedWavBlob` (lines 1421-1427): if
the peak is > 0, every sample is scaled by `0.98 / maxPeak`. -/
def normalizeBuffer (renderedBuffer : Buf) : Buf :=
  if 0 < maxPeak renderedBuffer then
    { renderedBuffer with data := renderedBuffer.data.map (fun data =>
        data.map (fun x => x * (98 / 100 / maxPeak renderedBuffer))) }
  else renderedBuffer

/-- `getProcessedWavBlob` with the offline EQ/master-gain rendering
abstracted as `offlineRender`: render, normalize, encode to WAV with the
rendered buffer's length. -/
def getProcessedWavBlob (offlineRender : Buf → Buf) (originalBuffer : Buf) : List ℕ :=
  let renderedBuffer := normalizeBuffer (offlineRender originalBuffer)
  bufferToWave renderedBuffer renderedBuffer.length

/-! ## Freeze local gain (AudioPlayer.js `freezeCurrentEffect`, lines 763-796) -/

/-- The per-channel gain loop of `freezeCurrentEffect` (lines 782-788):
`for (i = startSample; i < endSample && i < data.length; i++)
data[i] = data[i] * vol`. -/
def applyGainGo (vol : ℚ) (startSample endSample : ℤ) : ℕ → List ℚ → List ℚ
  | _, [] => []
  | i, x :: rest =>
    (if startSample ≤ (i : ℤ) ∧ (i : ℤ) < endSample then x * vol else x) ::
      applyGainGo vol startSample endSample (i + 1) rest

/-- The local-gain step of `freezeCurrentEffect` (lines 777-789): if
`params.volume` was set (not `undefined`), every sample of the rendered
buffer within the region frame window is multiplied by it, directly on
the sample data. -/
def applyLocalGain (newBuffer : Buf) (volume : Option ℚ) (regionStart regionEnd : ℚ) : Buf :=
  match volume with
  | none => newBuffer
  | some vol =>
    let startSample : ℤ := ⌊regionStart * (newBuffer.sampleRate : ℚ)⌋
    let endSample : ℤ := ⌊regionEnd * (newBuffer.sampleRate : ℚ)⌋
    { newBuffer with data := newBuffer.data.map (fun data =>
        applyGainGo vol startSample endSample 0 data) }

/-! ## List access helpers -/

theorem getD_map_of_lt {α β : Type} (f : α → β) (l : List α) (c : ℕ) (h : c < l.length)
    (d : β) (d0 : α) : (l.map f).getD c d = f (l.getD c d0) := by
  rw [List.getD_eq_getElem _ _ (by simpa using h), List.getD_eq_getElem _ _ h]
  simp

theorem getD_range_map {β : Type} (f : ℕ → β) (n c : ℕ) (h : c < n) (d : β) :
    ((List.range n).map f).getD c d = f c := by
  rw [getD_map_of_lt f _ c (by simpa using h) d 0]
  rw [List.getD_eq_getElem _ _ (by simpa using h)]
  simp

theorem getD_take {α : Type} (l : List α) (m j : ℕ) (d : α) (h : j < m) :
    (l.take m).getD j d = l.getD j d := by
  induction l generalizing m j with
  | nil => simp
  | cons x xs ih =>
    cases m with
    | zero => omega
    | succ m =>
      cases j with
      | zero => rfl
      | succ j => simpa using ih m j (by omega)

theorem getD_drop {α : Type} (l : List α) (m j : ℕ) (d : α) :
    (l.drop m).getD j d = l.getD (m + j) d := by
  induction l generalizing m with
  | nil => simp
  | cons x xs ih =>
    cases m with
    | zero => simp
    | succ m =>
      rw [List.drop_succ_cons, ih m, Nat.succ_add, List.getD_cons_succ]

theorem getD_map_length {α : Type} (l : List (List α)) (c : ℕ) :
    (l.map List.length).getD c 0 = (l.getD c []).length := by
  induction l generalizing c with
  | nil => simp
  | cons x xs ih =>
    cases c with
    | zero => rfl
    | succ c => simpa using ih c

theorem getD_mem {α : Type} (l : List α) (c : ℕ) (d : α) (h : c < l.length) :
    l.getD c d ∈ l := by
  rw [List.getD_eq_getElem _ _ h]
  exact List.getElem_mem h

theorem length_flatMap_const {α β : Type} (xs : List α) (F : α → List β) (C : ℕ)
    (h : ∀ x ∈ xs, (F x).length = C) : (xs.flatMap F).length = xs.length * C := by
  induction xs with
  | nil => simp
  | cons x xs ih =>
    have hx := h x (by simp)
    have ht := ih (fun y hy => h y (by simp [hy]))
    simp only [List.flatMap_cons, List.length_append, hx, ht, List.length_cons]
    ring

theorem flatMap_getD_block {α β : Type} (xs : List α) (F : α → List β) (C : ℕ)
    (h : ∀ x ∈ xs, (F x).length = C) (i r : ℕ) (hi : i < xs.length) (hr : r < C)
    (d : β) (d0 : α) :
    (xs.flatMap F).getD (i * C + r) d = (F (xs.getD i d0)).getD r d := by
  induction xs generalizing i with
  | nil => simp at hi
  | cons x xs ih =>
    cases i with
    | zero =>
      have hx : (F x).length = C := h x (by simp)
      simpa [List.flatMap_cons] using List.getD_append _ _ d r (by omega)
    | succ i =>
      have hx : (F x).length = C := h x (by simp)
      have harith : (i + 1) * C + r = (F x).length + (i * C + r) := by rw [hx]; ring
      rw [List.flatMap_cons, harith, List.getD_append_right _ _ _ _ (by omega),
        Nat.add_sub_cancel_left]
      exact ih (fun y hy => h y (by simp [hy])) i (by simpa using hi)

/-! ## C4: bufferToWave -/

theorem u32le_length (m : ℕ) : (u32le m).length = 4 := rfl

theorem u16le_length (m : ℕ) : (u16le m).length = 2 := rfl

theorem i16le_length (v : ℤ) : (i16le v).length = 2 := rfl

theorem getD_append_shift (l1 l2 : List ℕ) (n t : ℕ) (h : l1.length = n) :
    (l1 ++ l2).getD (n + t) 0 = l2.getD t 0 := by
  rw [List.getD_append_right _ _ _ _ (by omega)]
  congr 1
  omega

theorem readU16_shift (l1 l2 : List ℕ) (n k m : ℕ) (h : l1.length = n) (hm : m = n + k) :
    readU16 (l1 ++ l2) m = readU16 l2 k := by
  subst hm
  unfold readU16
  have h0 := getD_append_shift l1 l2 n k h
  have h1 := getD_append_shift l1 l2 n (k + 1) h
  rw [show n + k + 1 = n + (k + 1) by ring, h0, h1]

theorem readU32_shift (l1 l2 : List ℕ) (n k m : ℕ) (h : l1.length = n) (hm : m = n + k) :
    readU32 (l1 ++ l2) m = readU32 l2 k := by
  subst hm
  unfold readU32
  have h0 := getD_append_shift l1 l2 n k h
  have h1 := getD_append_shift l1 l2 n (k + 1) h
  have h2 := getD_append_shift l1 l2 n (k + 2) h
  have h3 := getD_append_shift l1 l2 n (k + 3) h
  rw [show n + k + 1 = n + (k + 1) by ring, show n + k + 2 = n + (k + 2) by ring,
    show n + k + 3 = n + (k + 3) by ring, h0, h1, h2, h3]

theorem readI16_shift (l1 l2 : List ℕ) (n k m : ℕ) (h : l1.length = n) (hm : m = n + k) :
    readI16 (l1 ++ l2) m = readI16 l2 k := by
  unfold readI16
  rw [readU16_shift l1 l2 n k m h hm]

theorem readU16_u16le (m : ℕ) (rest : List ℕ) : readU16 (u16le m ++ rest) 0 = m % 65536 := by
  have h : readU16 (u16le m ++ rest) 0 = m % 256 + 256 * (m / 256 % 256) := rfl
  rw [h]
  omega

theorem readU32_u32le (m : ℕ) (rest : List ℕ) :
    readU32 (u32le m ++ rest) 0 = m % 4294967296 := by
  have h : readU32 (u32le m ++ rest) 0 =
      m % 256 + 256 * (m / 256 % 256) + 65536 * (m / 65536 % 256) +
        16777216 * (m / 16777216 % 256) := rfl
  rw [h]
  omega

theorem i16_bytes_decode (v : ℤ) (hlo : -32768 ≤ v) (hhi : v ≤ 32767) :
    (if ((i16le v).getD 0 0 + 256 * (i16le v).getD 1 0) < 32768
     then (((i16le v).getD 0 0 + 256 * (i16le v).getD 1 0 : ℕ) : ℤ)
     else ((i16le v).getD 0 0 + 256 * (i16le v).getD 1 0 : ℕ) - 65536) = v := by
  have h0 : (i16le v).getD 0 0 = (v % 65536).toNat % 256 := rfl
  have h1 : (i16le v).getD 1 0 = (v % 65536).toNat / 256 % 256 := rfl
  rw [h0, h1]
  split_ifs <;> omega

theorem sampleToI16_range (s : ℚ) : -32768 ≤ sampleToI16 s ∧ sampleToI16 s ≤ 32767 := by
  unfold sampleToI16 jsTrunc
  have hc1 : (-1 : ℚ) ≤ max (-1) (min 1 s) := le_max_left _ _
  have hc2 : max (-1 : ℚ) (min 1 s) ≤ 1 := max_le (by norm_num) (min_le_left _ _)
  by_cases hneg : max (-1 : ℚ) (min 1 s) < 0
  · rw [if_pos hneg]
    have hq : max (-1 : ℚ) (min 1 s) * 0x8000 < 0 := by nlinarith
    rw [if_neg (not_le.mpr hq)]
    constructor
    · have hge : ((-32768 : ℤ) : ℚ) ≤ max (-1 : ℚ) (min 1 s) * 0x8000 := by
        push_cast
        nlinarith
      calc (-32768 : ℤ) = ⌈((-32768 : ℤ) : ℚ)⌉ := (Int.ceil_intCast _).symm
        _ ≤ ⌈max (-1 : ℚ) (min 1 s) * 0x8000⌉ := Int.ceil_le_ceil hge
    · have : ⌈max (-1 : ℚ) (min 1 s) * 0x8000⌉ ≤ 0 :=
        Int.ceil_le.mpr (by exact_mod_cast le_of_lt hq)
      omega
  · rw [if_neg hneg]
    push_neg at hneg
    rw [if_pos (mul_nonneg hneg (by norm_num))]
    constructor
    · have : (0 : ℤ) ≤ ⌊max (-1 : ℚ) (min 1 s) * 0x7FFF⌋ :=
        Int.floor_nonneg.mpr (mul_nonneg hneg (by norm_num))
      omega
    · have hle : max (-1 : ℚ) (min 1 s) * 0x7FFF ≤ ((32767 : ℤ) : ℚ) := by
        push_cast
        nlinarith
      calc ⌊max (-1 : ℚ) (min 1 s) * 0x7FFF⌋ ≤ ⌊((32767 : ℤ) : ℚ)⌋ := Int.floor_le_floor hle
        _ = 32767 := Int.floor_intCast _

/-- **C4**: `bufferToWave` emits a 44-byte RIFF/WAVE/fmt /data header
followed by the PCM frames, channel-interleaved; the RIFF and data size
fields agree (mod 2^32) with the written data length
`frames · channels · 2`; each stored 16-bit sample is the source sample
clamped to [-1, 1] and scaled by 0x8000 when negative and 0x7FFF
otherwise (`sampleToI16`), recovered exactly by a signed little-endian
16-bit read. -/
theorem bufferToWave_spec (abuffer : Buf) (len L : ℕ)
    (hL : (if len = 0 then abuffer.length else len) = L) :
    (bufferToWave abuffer len).length = 44 + L * abuffer.data.length * 2 ∧
    (bufferToWave abuffer len).take 4 = [82, 73, 70, 70] ∧
    readU32 (bufferToWave abuffer len) 4 =
      (36 + L * abuffer.data.length * 2) % 4294967296 ∧
    ((bufferToWave abuffer len).drop 8).take 4 = [87, 65, 86, 69] ∧
    ((bufferToWave abuffer len).drop 12).take 4 = [102, 109, 116, 32] ∧
    readU16 (bufferToWave abuffer len) 22 = abuffer.data.length % 65536 ∧
    readU16 (bufferToWave abuffer len) 34 = 16 ∧
    ((bufferToWave abuffer len).drop 36).take 4 = [100, 97, 116, 97] ∧
    readU32 (bufferToWave abuffer len) 40 = (L * abuffer.data.length * 2) % 4294967296 ∧
    ∀ i < L, ∀ c < abuffer.data.length,
      readI16 (bufferToWave abuffer len) (44 + 2 * (i * abuffer.data.length + c)) =
        sampleToI16 ((abuffer.data.getD c []).getD i 0) := by
  set pcm := (List.range L).flatMap (fun i =>
    abuffer.data.flatMap (fun ch => i16le (sampleToI16 (ch.getD i 0)))) with hpcm
  have hsplit44 : bufferToWave abuffer len =
      wavHeader abuffer.data.length abuffer.sampleRate (L * abuffer.data.length * 2) ++ pcm := by
    simp only [bufferToWave, Buf.numberOfChannels, hL, hpcm]
  have hHD : (wavHeader abuffer.data.length abuffer.sampleRate
      (L * abuffer.data.length * 2)).length = 44 := by
    simp [wavHeader, u32le, u16le]
  have hFlen : ∀ x ∈ List.range L,
      (abuffer.data.flatMap (fun ch => i16le (sampleToI16 (ch.getD x 0)))).length =
        abuffer.data.length * 2 := by
    intro x _
    exact length_flatMap_const _ _ _ (fun ch _ => rfl)
  have hpcm_len : pcm.length = L * (abuffer.data.length * 2) := by
    rw [hpcm]
    rw [length_flatMap_const _ _ _ hFlen]
    simp
  have hassoc : bufferToWave abuffer len =
      [82, 73, 70, 70] ++ (u32le (36 + L * abuffer.data.length * 2) ++
      ([87, 65, 86, 69] ++ ([102, 109, 116, 32] ++ (u32le 16 ++ (u16le 1 ++
      (u16le abuffer.data.length ++ (u32le abuffer.sampleRate ++
      (u32le (abuffer.sampleRate * 2 * abuffer.data.length) ++
      (u16le (abuffer.data.length * 2) ++ (u16le 16 ++ ([100, 97, 116, 97] ++
      (u32le (L * abuffer.data.length * 2) ++ pcm)))))))))))) := by
    rw [hsplit44]
    simp only [wavHeader, List.append_assoc]
  refine ⟨?_, ?_, ?_, ?_, ?_, ?_, ?_, ?_, ?_, ?_⟩
  · rw [hsplit44, List.length_append, hHD, hpcm_len]
    ring
  · rw [hassoc]
    rfl
  · rw [hassoc, readU32_shift [82, 73, 70, 70] _ 4 0 4 rfl (by norm_num), readU32_u32le]
  · rw [hassoc]
    rfl
  · rw [hassoc]
    rfl
  · rw [hassoc,
      readU16_shift [82, 73, 70, 70] _ 4 18 22 rfl (by norm_num),
      readU16_shift _ _ 4 14 18 (u32le_length _) (by norm_num),
      readU16_shift [87, 65, 86, 69] _ 4 10 14 rfl (by norm_num),
      readU16_shift [102, 109, 116, 32] _ 4 6 10 rfl (by norm_num),
      readU16_shift _ _ 4 2 6 (u32le_length _) (by norm_num),
      readU16_shift _ _ 2 0 2 (u16le_length _) (by norm_num),
      readU16_u16le]
  · rw [hassoc,
      readU16_shift [82, 73, 70, 70] _ 4 30 34 rfl (by norm_num),
      readU16_shift _ _ 4 26 30 (u32le_length _) (by norm_num),
      readU16_shift [87, 65, 86, 69] _ 4 22 26 rfl (by norm_num),
      readU16_shift [102, 109, 116, 32] _ 4 18 22 rfl (by norm_num),
      readU16_shift _ _ 4 14 18 (u32le_length _) (by norm_num),
      readU16_shift _ _ 2 12 14 (u16le_length _) (by norm_num),
      readU16_shift _ _ 2 10 12 (u16le_length _) (by norm_num),
      readU16_shift _ _ 4 6 10 (u32le_length _) (by norm_num),
      readU16_shift _ _ 4 2 6 (u32le_length _) (by norm_num),
      readU16_shift _ _ 2 0 2 (u16le_length _) (by norm_num),
      readU16_u16le]
  · rw [hassoc]
    rfl
  · rw [hassoc,
      readU32_shift [82, 73, 70, 70] _ 4 36 40 rfl (by norm_num),
      readU32_shift _ _ 4 32 36 (u32le_length _) (by norm_num),
      readU32_shift [87, 65, 86, 69] _ 4 28 32 rfl (by norm_num),
      readU32_shift [102, 109, 116, 32] _ 4 24 28 rfl (by norm_num),
      readU32_shift _ _ 4 20 24 (u32le_length _) (by norm_num),
      readU32_shift _ _ 2 18 20 (u16le_length _) (by norm_num),
      readU32_shift _ _ 2 16 18 (u16le_length _) (by norm_num),
      readU32_shift _ _ 4 12 16 (u32le_length _) (by norm_num),
      readU32_shift _ _ 4 8 12 (u32le_length _) (by norm_num),
      readU32_shift _ _ 2 6 8 (u16le_length _) (by norm_num),
      readU32_shift _ _ 2 4 6 (u16le_length _) (by norm_num),
      readU32_shift [100, 97, 116, 97] _ 4 0 4 rfl (by norm_num),
      readU32_u32le]
  · intro i hi c hc
    have hrange : (List.range L).getD i 0 = i := by
      rw [List.getD_eq_getElem _ _ (by simpa using hi)]
      simp
    have hblock : ∀ r < 2,
        pcm.getD (i * (abuffer.data.length * 2) + (c * 2 + r)) 0 =
          (i16le (sampleToI16 ((abuffer.data.getD c []).getD i 0))).getD r 0 := by
      intro r hr
      rw [hpcm, flatMap_getD_block (List.range L) _ (abuffer.data.length * 2) hFlen i
        (c * 2 + r) (by simpa using hi) (by omega) 0 0, hrange]
      exact flatMap_getD_block abuffer.data
        (fun ch => i16le (sampleToI16 (ch.getD i 0))) 2
        (fun ch _ => i16le_length _) c r hc hr 0 []
    have hidx0 : 2 * (i * abuffer.data.length + c) =
        i * (abuffer.data.length * 2) + (c * 2 + 0) := by ring
    have hidx1 : 2 * (i * abuffer.data.length + c) + 1 =
        i * (abuffer.data.length * 2) + (c * 2 + 1) := by ring
    rw [hsplit44, readI16_shift _ _ 44 (2 * (i * abuffer.data.length + c)) _ hHD rfl]
    show (if readU16 pcm (2 * (i * abuffer.data.length + c)) < 32768
      then (readU16 pcm (2 * (i * abuffer.data.length + c)) : ℤ)
      else (readU16 pcm (2 * (i * abuffer.data.length + c)) : ℤ) - 65536) = _
    have hread : readU16 pcm (2 * (i * abuffer.data.length + c)) =
        (i16le (sampleToI16 ((abuffer.data.getD c []).getD i 0))).getD 0 0 +
          256 * (i16le (sampleToI16 ((abuffer.data.getD c []).getD i 0))).getD 1 0 := by
      unfold readU16
      rw [hidx1, hblock 1 (by norm_num), hidx0, hblock 0 (by norm_num)]
    rw [hread]
    exact i16_bytes_decode _ (sampleToI16_range _).1 (sampleToI16_range _).2

/-! ## C6: sliceBuffer -/

/-- **C6**: for a well-formed buffer of `N` frames and ratios
`0 ≤ a < b ≤ 1`, `sliceBuffer` returns `none` exactly when the computed
frame count `⌊b·N⌋ - ⌊a·N⌋` is ≤ 0; a returned buffer has exactly
`⌊b·N⌋ - ⌊a·N⌋` frames per channel, equal to the source frames
`[⌊a·N⌋, ⌊b·N⌋)` on every channel; slicing `(0, 1)` of a nonempty buffer
yields a buffer sample-identical to the original. -/
theorem sliceBuffer_spec (buffer : Buf) (N : ℕ) (a b : ℚ)
    (hWF : ∀ ch ∈ buffer.data, ch.length = N) (hN : buffer.length = N)
    (ha : 0 ≤ a) (hab : a < b) (hb : b ≤ 1) :
    (sliceBuffer buffer a b = none ↔ ⌊b * (N : ℚ)⌋ - ⌊a * (N : ℚ)⌋ ≤ 0) ∧
    (∀ r, sliceBuffer buffer a b = some r →
      r.sampleRate = buffer.sampleRate ∧
      r.data.length = buffer.data.length ∧
      ∀ c < buffer.data.length,
        (r.data.getD c []).length = (⌊b * (N : ℚ)⌋).toNat - (⌊a * (N : ℚ)⌋).toNat ∧
        ∀ j < (⌊b * (N : ℚ)⌋).toNat - (⌊a * (N : ℚ)⌋).toNat,
          (r.data.getD c []).getD j 0 =
            (buffer.data.getD c []).getD ((⌊a * (N : ℚ)⌋).toNat + j) 0) ∧
    (0 < N → sliceBuffer buffer 0 1 = some buffer) := by
  have hfa : (0 : ℤ) ≤ ⌊a * (N : ℚ)⌋ :=
    Int.floor_nonneg.mpr (mul_nonneg ha (by positivity))
  have hfb : ⌊b * (N : ℚ)⌋ ≤ (N : ℤ) := by
    have : b * (N : ℚ) ≤ (N : ℚ) := by
      calc b * (N : ℚ) ≤ 1 * (N : ℚ) := by
            exact mul_le_mul_of_nonneg_right hb (by positivity)
        _ = (N : ℚ) := one_mul _
    calc ⌊b * (N : ℚ)⌋ ≤ ⌊(N : ℚ)⌋ := Int.floor_le_floor this
      _ = (N : ℤ) := Int.floor_natCast N
  refine ⟨?_, ?_, ?_⟩
  · by_cases hfc : ⌊b * (N : ℚ)⌋ - ⌊a * (N : ℚ)⌋ ≤ 0 <;> simp [sliceBuffer, hN, hfc]
  · intro r hr
    by_cases hfc : ⌊b * (N : ℚ)⌋ - ⌊a * (N : ℚ)⌋ ≤ 0
    · simp [sliceBuffer, hN, hfc] at hr
    · simp only [sliceBuffer, hN, if_neg hfc, Option.some.injEq] at hr
      subst hr
      refine ⟨rfl, by simp, ?_⟩
      intro c hc
      have hch : (buffer.data.getD c []).length = N :=
        hWF _ (getD_mem _ _ _ hc)
      rw [getD_map_of_lt _ _ _ hc _ []]
      have hslen : (((buffer.data.getD c []).drop (⌊a * (N : ℚ)⌋).toNat).take
          ((⌊b * (N : ℚ)⌋).toNat - (⌊a * (N : ℚ)⌋).toNat)).length =
          (⌊b * (N : ℚ)⌋).toNat - (⌊a * (N : ℚ)⌋).toNat := by
        simp only [List.length_take, List.length_drop, hch]
        omega
      have hpad : (⌊b * (N : ℚ)⌋ - ⌊a * (N : ℚ)⌋).toNat -
          (((buffer.data.getD c []).drop (⌊a * (N : ℚ)⌋).toNat).take
            ((⌊b * (N : ℚ)⌋).toNat - (⌊a * (N : ℚ)⌋).toNat)).length = 0 := by
        rw [hslen]; omega
      simp only [hpad, List.replicate_zero, List.append_nil]
      refine ⟨hslen, ?_⟩
      intro j hj
      rw [getD_take _ _ _ _ hj, getD_drop]
  · intro hNpos
    simp only [sliceBuffer, hN, zero_mul, Int.floor_zero, one_mul, Int.floor_natCast,
      Int.toNat_zero, Int.toNat_natCast, Nat.sub_zero, sub_zero]
    rw [if_neg (by simp; omega)]
    have hdata : buffer.data.map (fun ch =>
        (ch.drop 0).take N ++
          List.replicate (N - ((ch.drop 0).take N).length) 0) =
        buffer.data := by
      calc buffer.data.map (fun ch =>
              (ch.drop 0).take N ++
                List.replicate (N - ((ch.drop 0).take N).length) 0) =
            buffer.data.map id := by
            refine List.map_congr_left ?_
            intro ch hmem
            have hchl : ch.length = N := hWF ch hmem
            simp [List.take_of_length_le (le_of_eq hchl), hchl]
        _ = buffer.data := List.map_id _
    rw [hdata]

/-! ## C7: reverseRange -/

theorem reverseSeg_zero (l : List ℚ) (e : ℕ) :
    reverseSeg l 0 e = (l.take e).reverse ++ l.drop e := by
  simp [reverseSeg]

theorem reverseSeg_cons_succ (x : ℚ) (t : List ℚ) (s e : ℕ) :
    reverseSeg (x :: t) (s + 1) (e + 1) = x :: reverseSeg t s e := by
  simp [reverseSeg, Nat.succ_sub_succ]

theorem reverseSeg_involution (s : ℕ) :
    ∀ (l : List ℚ) (e : ℕ), s ≤ e → reverseSeg (reverseSeg l s e) s e = l := by
  induction s with
  | zero =>
    intro l e _
    rw [reverseSeg_zero, reverseSeg_zero]
    by_cases he : e ≤ l.length
    · have hlen : ((l.take e).reverse).length = e := by
        simp [min_eq_left he]
      have htake := List.take_left ((l.take e).reverse) (l.drop e)
      have hdrop := List.drop_left ((l.take e).reverse) (l.drop e)
      rw [hlen] at htake hdrop
      rw [htake, hdrop]
      simp
    · push_neg at he
      rw [List.take_of_length_le (le_of_lt he), List.drop_of_length_le (le_of_lt he)]
      rw [List.append_nil]
      rw [List.take_of_length_le (by simpa using le_of_lt he),
          List.drop_of_length_le (by simpa using le_of_lt he)]
      simp
  | succ s ih =>
    intro l e hse
    cases l with
    | nil => simp [reverseSeg]
    | cons x t =>
      cases e with
      | zero => omega
      | succ e =>
        rw [reverseSeg_cons_succ, reverseSeg_cons_succ, ih t e (by omega)]

/-- **C7**: `reverseRange` is an involution for valid times
`0 ≤ t0 < t1`: applying it twice with the same bounds restores the
buffer exactly; a single application keeps the sample rate and maps each
channel to a full copy whose frame range
`[⌊t0·sampleRate⌋, ⌊t1·sampleRate⌋)` is reversed (and is untouched when
the range is empty). -/
theorem reverseRange_involution (buffer : Buf) (t0 t1 : ℚ)
    (h0 : 0 ≤ t0) (h01 : t0 < t1) :
    reverseRange (reverseRange buffer t0 t1) t0 t1 = buffer ∧
    (reverseRange buffer t0 t1).sampleRate = buffer.sampleRate ∧
    (reverseRange buffer t0 t1).data = buffer.data.map (fun ch =>
      if ⌊t0 * (buffer.sampleRate : ℚ)⌋ < ⌊t1 * (buffer.sampleRate : ℚ)⌋ then
        reverseSeg ch (⌊t0 * (buffer.sampleRate : ℚ)⌋).toNat
          (⌊t1 * (buffer.sampleRate : ℚ)⌋).toNat
      else ch) := by
  refine ⟨?_, rfl, rfl⟩
  show Buf.mk buffer.sampleRate _ = buffer
  have hdata : (buffer.data.map (fun ch =>
      if ⌊t0 * (buffer.sampleRate : ℚ)⌋ < ⌊t1 * (buffer.sampleRate : ℚ)⌋ then
        reverseSeg ch (⌊t0 * (buffer.sampleRate : ℚ)⌋).toNat
          (⌊t1 * (buffer.sampleRate : ℚ)⌋).toNat
      else ch)).map (fun ch =>
      if ⌊t0 * (buffer.sampleRate : ℚ)⌋ < ⌊t1 * (buffer.sampleRate : ℚ)⌋ then
        reverseSeg ch (⌊t0 * (buffer.sampleRate : ℚ)⌋).toNat
          (⌊t1 * (buffer.sampleRate : ℚ)⌋).toNat
      else ch) = buffer.data := by
    rw [List.map_map]
    have hfun : ∀ ch : List ℚ,
        ((fun ch =>
          if ⌊t0 * (buffer.sampleRate : ℚ)⌋ < ⌊t1 * (buffer.sampleRate : ℚ)⌋ then
            reverseSeg ch (⌊t0 * (buffer.sampleRate : ℚ)⌋).toNat
              (⌊t1 * (buffer.sampleRate : ℚ)⌋).toNat
          else ch) ∘ (fun ch =>
          if ⌊t0 * (buffer.sampleRate : ℚ)⌋ < ⌊t1 * (buffer.sampleRate : ℚ)⌋ then
            reverseSeg ch (⌊t0 * (buffer.sampleRate : ℚ)⌋).toNat
              (⌊t1 * (buffer.sampleRate : ℚ)⌋).toNat
          else ch)) ch = ch := by
      intro ch
      by_cases hlt : ⌊t0 * (buffer.sampleRate : ℚ)⌋ < ⌊t1 * (buffer.sampleRate : ℚ)⌋
      · simp only [Function.comp_apply, if_pos hlt]
        exact reverseSeg_involution _ ch _
          (Int.toNat_le_toNat (le_of_lt hlt))
      · simp only [Function.comp_apply, if_neg hlt]
    calc buffer.data.map _ = buffer.data.map id := List.map_congr_left (fun ch _ => hfun ch)
      _ = buffer.data := List.map_id _
  cases buffer with
  | mk sr data => simpa [reverseRange] using hdata

/-! ## C2: applyMathBitcrush -/

theorem bitcrushGo_length (step stepScale : ℚ) (ss : ℤ) :
    ∀ (d : List ℚ) (i : ℕ) (last : ℚ),
      (bitcrushGo step stepScale ss i last d).length = d.length := by
  intro d
  induction d with
  | nil => intro i last; rfl
  | cons x rest ih => intro i last; simp [bitcrushGo, ih]

/-- Closed form of the bitcrush loop: starting at index `i` with latch
`last`, output `j` is the quantization of the input at the latest
multiple of `sN` not exceeding `i + j` — or the initial latch if that
multiple lies before `i`. -/
theorem bitcrushGo_getD (step stepScale : ℚ) (sN : ℕ) (hs : 1 ≤ sN) :
    ∀ (d : List ℚ) (i : ℕ) (last : ℚ) (j : ℕ), j < d.length →
      (bitcrushGo step stepScale (sN : ℤ) i last d).getD j 0 =
        if i ≤ ((i + j) / sN) * sN
        then (round ((d.getD (((i + j) / sN) * sN - i) 0) * stepScale) : ℚ) * step
        else last := by
  intro d
  induction d with
  | nil => intro i last j hj; simp at hj
  | cons x rest ih =>
    intro i last j hj
    have hssne : (sN : ℤ) ≠ 0 := by
      have : sN ≠ 0 := by omega
      exact_mod_cast this
    have hmod : ((i : ℤ) % (sN : ℤ) = 0) ↔ (i % sN = 0) := by
      constructor <;> intro h <;> exact_mod_cast h
    have hmle : ((i + j) / sN) * sN ≤ i + j := Nat.div_mul_le_self _ _
    have hmmod : (((i + j) / sN) * sN) % sN = 0 := Nat.mul_mod_left _ _
    cases j with
    | zero =>
      by_cases hi0 : i % sN = 0
      · have hmi : (i / sN) * sN = i := Nat.div_mul_cancel (Nat.dvd_of_mod_eq_zero hi0)
        simp only [bitcrushGo, Nat.add_zero, hmi, le_refl, if_pos, List.getD_cons_zero,
          Nat.sub_self]
        rw [if_pos ⟨hssne, hmod.mpr hi0⟩]
      · have hmlt : (i / sN) * sN < i := by
          rcases Nat.lt_or_ge ((i / sN) * sN) i with h | h
          · exact h
          · exfalso
            have : (i / sN) * sN = i := le_antisymm (Nat.div_mul_le_self _ _) h
            exact hi0 (by rw [← this]; exact Nat.mul_mod_left _ _)
        simp only [bitcrushGo, Nat.add_zero, List.getD_cons_zero]
        rw [if_neg (fun hc => (hmod.mp hc.2) |> hi0), if_neg (by omega)]
    | succ j =>
      have hstep : (bitcrushGo step stepScale (sN : ℤ) i last (x :: rest)).getD (j + 1) 0 =
          (bitcrushGo step stepScale (sN : ℤ) (i + 1)
            (if (sN : ℤ) ≠ 0 ∧ (i : ℤ) % (sN : ℤ) = 0
              then (round (x * stepScale) : ℚ) * step else last) rest).getD j 0 := by
        simp only [bitcrushGo, List.getD_cons_succ]
      rw [hstep, ih (i + 1) _ j (by simpa using hj)]
      have hsum : i + 1 + j = i + (j + 1) := by omega
      rw [hsum]
      by_cases h1 : i + 1 ≤ ((i + (j + 1)) / sN) * sN
      · rw [if_pos h1, if_pos (by omega)]
        have hidx : ((i + (j + 1)) / sN) * sN - i = (((i + (j + 1)) / sN) * sN - (i + 1)) + 1 := by
          omega
        rw [hidx, List.getD_cons_succ]
      · rw [if_neg h1]
        by_cases hmi : ((i + (j + 1)) / sN) * sN = i
        · have hi0 : i % sN = 0 := by rw [← hmi]; exact Nat.mul_mod_left _ _
          rw [if_pos ⟨hssne, hmod.mpr hi0⟩, if_pos (by omega), hmi, Nat.sub_self,
            List.getD_cons_zero]
        · have hmlt : ((i + (j + 1)) / sN) * sN < i := by omega
          have hi0 : i % sN ≠ 0 := by
            intro h
            have hdvd : (i / sN) * sN = i := Nat.div_mul_cancel (Nat.dvd_of_mod_eq_zero h)
            have hdiv : i / sN ≤ (i + (j + 1)) / sN := Nat.div_le_div_right (by omega)
            have : i ≤ ((i + (j + 1)) / sN) * sN := by
              calc i = (i / sN) * sN := hdvd.symm
                _ ≤ ((i + (j + 1)) / sN) * sN := Nat.mul_le_mul_right _ hdiv
            omega
          rw [if_neg (fun hc => (hmod.mp hc.2) |> hi0), if_neg (by omega)]

/-- **C2**: for a buffer, integer `bits = b` and `normFreq ∈ (0, 1]`,
`applyMathBitcrush` preserves shape and processes each channel
independently: every output sample is `round(s · 2^b) / 2^b` for some
input sample `s` of the same channel, and the value taken at a frame
index divisible by `floor(1/normFreq)` is held unchanged for the
following `floor(1/normFreq) - 1` frames (the final run clipped at the
channel end). -/
theorem applyMathBitcrush_spec (buffer : Buf) (bits : ℤ) (normFreq : ℚ)
    (h0 : 0 < normFreq) (h1 : normFreq ≤ 1) :
    (applyMathBitcrush buffer bits normFreq).sampleRate = buffer.sampleRate ∧
    (applyMathBitcrush buffer bits normFreq).data.length = buffer.data.length ∧
    ∀ c < buffer.data.length,
      ((applyMathBitcrush buffer bits normFreq).data.getD c []).length =
        (buffer.data.getD c []).length ∧
      (∀ j < (buffer.data.getD c []).length,
        ∃ s ∈ buffer.data.getD c [],
          ((applyMathBitcrush buffer bits normFreq).data.getD c []).getD j 0 =
            (round (s * 2 ^ bits) : ℚ) / 2 ^ bits) ∧
      (∀ i, i % (⌊1 / normFreq⌋).toNat = 0 →
        ∀ t < (⌊1 / normFreq⌋).toNat, i + t < (buffer.data.getD c []).length →
          ((applyMathBitcrush buffer bits normFreq).data.getD c []).getD (i + t) 0 =
            ((applyMathBitcrush buffer bits normFreq).data.getD c []).getD i 0) := by
  have hfloor1 : (1 : ℤ) ≤ ⌊1 / normFreq⌋ := by
    apply Int.le_floor.mpr
    rw [le_div_iff₀ h0]
    push_cast
    linarith
  have hs : 1 ≤ (⌊1 / normFreq⌋).toNat := by omega
  have hcast : (((⌊1 / normFreq⌋).toNat : ℕ) : ℤ) = ⌊1 / normFreq⌋ := by omega
  have hscale : (1 : ℚ) / (1 / 2 ^ bits) = 2 ^ bits := one_div_one_div _
  have hdata : (applyMathBitcrush buffer bits normFreq).data =
      buffer.data.map (fun d =>
        bitcrushGo (1 / 2 ^ bits) (2 ^ bits) (((⌊1 / normFreq⌋).toNat : ℕ) : ℤ) 0 0 d) := by
    simp only [applyMathBitcrush, hscale, hcast]
  refine ⟨rfl, by rw [hdata]; simp, ?_⟩
  intro c hc
  set sN := (⌊1 / normFreq⌋).toNat with hsN
  set ch := buffer.data.getD c [] with hch
  have hgo : (applyMathBitcrush buffer bits normFreq).data.getD c [] =
      bitcrushGo (1 / 2 ^ bits) (2 ^ bits) ((sN : ℕ) : ℤ) 0 0 ch := by
    rw [hdata]
    exact getD_map_of_lt _ _ _ hc _ []
  have hclosed : ∀ j < ch.length,
      (bitcrushGo (1 / 2 ^ bits) (2 ^ bits) ((sN : ℕ) : ℤ) 0 0 ch).getD j 0 =
        (round ((ch.getD ((j / sN) * sN) 0) * 2 ^ bits) : ℚ) * (1 / 2 ^ bits) := by
    intro j hj
    rw [bitcrushGo_getD _ _ sN hs ch 0 0 j hj]
    simp only [Nat.zero_add, Nat.zero_le, if_pos, Nat.sub_zero]
  refine ⟨by rw [hgo]; exact bitcrushGo_length _ _ _ _ _ _, ?_, ?_⟩
  · intro j hj
    refine ⟨ch.getD ((j / sN) * sN) 0, getD_mem _ _ _ ?_, ?_⟩
    · calc (j / sN) * sN ≤ j := Nat.div_mul_le_self _ _
        _ < ch.length := hj
    · rw [hgo, hclosed j hj, mul_one_div]
  · intro i hi t ht hlen
    have hieq : (i / sN) * sN = i := Nat.div_mul_cancel (Nat.dvd_of_mod_eq_zero hi)
    have hdiv : (i + t) / sN = i / sN := by
      have : i + t = sN * (i / sN) + t := by rw [mul_comm, hieq]
      rw [this, Nat.mul_add_div (by omega), Nat.div_eq_of_lt ht, Nat.add_zero]
    have hilen : i < ch.length := by omega
    rw [hgo, hclosed (i + t) hlen, hclosed i hilen, hdiv]

/-! ## C8: makeDistortionCurve -/

/-- **C8**: for every numeric amount `k`, the distortion curve has
exactly 44100 entries; entry `i` equals
`((3+k)·x·20·(π/180)) / (π + k·|x|)` at `x = (2i)/44100 - 1` (with `π`
the IEEE double `Math.PI`), and the `x` values cover `[-1, 1)` — the
function is a pure function of `k` and `i`. -/
theorem makeDistortionCurve_spec (k : ℚ) :
    (makeDistortionCurve (some k)).length = 44100 ∧
    ∀ i < 44100,
      (makeDistortionCurve (some k)).getD i 0 =
        ((3 + k) * (((i : ℚ) * 2) / 44100 - 1) * 20 * (mathPI / 180)) /
          (mathPI + k * |((i : ℚ) * 2) / 44100 - 1|) ∧
      -1 ≤ ((i : ℚ) * 2) / 44100 - 1 ∧ ((i : ℚ) * 2) / 44100 - 1 < 1 := by
  constructor
  · simp only [makeDistortionCurve, List.length_map, List.length_range]
  · intro i hi
    refine ⟨?_, ?_, ?_⟩
    · simp only [makeDistortionCurve]
      rw [getD_range_map _ _ _ hi]
      norm_num
    · have : (0 : ℚ) ≤ ((i : ℚ) * 2) / 44100 := by positivity
      linarith
    · have hiq : (i : ℚ) < 44100 := by exact_mod_cast hi
      have : ((i : ℚ) * 2) / 44100 < 2 := by
        rw [div_lt_iff₀ (by norm_num)]
        linarith
      linarith

/-! ## C3: export-pipeline normalization -/

theorem foldl_peak_init_le (ch : List ℚ) :
    ∀ acc : ℚ, acc ≤ ch.foldl (fun m x => if |x| > m then |x| else m) acc := by
  induction ch with
  | nil => intro acc; exact le_refl _
  | cons x t ih =>
    intro acc
    refine le_trans ?_ (ih (if |x| > acc then |x| else acc))
    by_cases h : |x| > acc
    · rw [if_pos h]; exact le_of_lt h
    · rw [if_neg h]

theorem foldl_peak_mem_le (ch : List ℚ) :
    ∀ acc : ℚ, ∀ x ∈ ch, |x| ≤ ch.foldl (fun m x => if |x| > m then |x| else m) acc := by
  induction ch with
  | nil => intro acc x hx; simp at hx
  | cons y t ih =>
    intro acc x hx
    rcases List.mem_cons.mp hx with hx | hx
    · subst hx
      rw [List.foldl_cons]
      refine le_trans ?_ (foldl_peak_init_le t (if |x| > acc then |x| else acc))
      by_cases h : |x| > acc
      · rw [if_pos h]
      · rw [if_neg h]; exact le_of_not_lt h
    · exact ih _ x hx

theorem foldl_peak_attained (ch : List ℚ) :
    ∀ acc : ℚ, ch.foldl (fun m x => if |x| > m then |x| else m) acc = acc ∨
      ∃ x ∈ ch, ch.foldl (fun m x => if |x| > m then |x| else m) acc = |x| := by
  induction ch with
  | nil => intro acc; exact Or.inl rfl
  | cons y t ih =>
    intro acc
    rcases ih (if |y| > acc then |y| else acc) with h | ⟨x, hx, h⟩
    · by_cases hy : |y| > acc
      · right
        exact ⟨y, by simp, by rw [List.foldl_cons, h, if_pos hy]⟩
      · left
        rw [List.foldl_cons, h, if_neg hy]
    · right
      exact ⟨x, by simp [hx], by rw [List.foldl_cons, h]⟩

theorem foldl_peak2_init_le (chs : List (List ℚ)) :
    ∀ acc : ℚ, acc ≤ chs.foldl
      (fun acc data => data.foldl (fun m x => if |x| > m then |x| else m) acc) acc := by
  induction chs with
  | nil => intro acc; exact le_refl _
  | cons c t ih =>
    intro acc
    rw [List.foldl_cons]
    exact le_trans (foldl_peak_init_le c acc) (ih _)

theorem foldl_peak2_mem_le (chs : List (List ℚ)) :
    ∀ acc : ℚ, ∀ ch ∈ chs, ∀ x ∈ ch, |x| ≤ chs.foldl
      (fun acc data => data.foldl (fun m x => if |x| > m then |x| else m) acc) acc := by
  induction chs with
  | nil => intro acc ch hch; simp at hch
  | cons c t ih =>
    intro acc ch hch x hx
    rcases List.mem_cons.mp hch with h | h
    · subst h
      rw [List.foldl_cons]
      exact le_trans (foldl_peak_mem_le ch acc x hx) (foldl_peak2_init_le t _)
    · rw [List.foldl_cons]
      exact ih _ ch h x hx

theorem foldl_peak2_attained (chs : List (List ℚ)) :
    ∀ acc : ℚ, chs.foldl
      (fun acc data => data.foldl (fun m x => if |x| > m then |x| else m) acc) acc = acc ∨
      ∃ ch ∈ chs, ∃ x ∈ ch, chs.foldl
        (fun acc data => data.foldl (fun m x => if |x| > m then |x| else m) acc) acc = |x| := by
  induction chs with
  | nil => intro acc; exact Or.inl rfl
  | cons c t ih =>
    intro acc
    rw [List.foldl_cons]
    rcases ih (c.foldl (fun m x => if |x| > m then |x| else m) acc) with h | ⟨ch, hch, x, hx, h⟩
    · rcases foldl_peak_attained c acc with h2 | ⟨x, hx, h2⟩
      · exact Or.inl (by rw [h, h2])
      · exact Or.inr ⟨c, by simp, x, hx, by rw [h, h2]⟩
    · exact Or.inr ⟨ch, by simp [hch], x, hx, h⟩

theorem foldl_peak_scale (f : ℚ) (hf : 0 < f) (ch : List ℚ) :
    ∀ acc : ℚ,
      (ch.map (fun x => x * f)).foldl (fun m x => if |x| > m then |x| else m) (f * acc) =
        f * ch.foldl (fun m x => if |x| > m then |x| else m) acc := by
  induction ch with
  | nil => intro acc; rfl
  | cons x t ih =>
    intro acc
    rw [List.map_cons, List.foldl_cons, List.foldl_cons]
    have hstep : (if |x * f| > f * acc then |x * f| else f * acc) =
        f * (if |x| > acc then |x| else acc) := by
      rw [abs_mul, abs_of_pos hf, mul_comm |x| f]
      by_cases h : acc < |x|
      · rw [if_pos ((mul_lt_mul_left hf).mpr h), if_pos h]
      · rw [if_neg (fun hc => h ((mul_lt_mul_left hf).mp hc)), if_neg h]
    rw [hstep, ih]

theorem maxPeak_scale (f : ℚ) (hf : 0 < f) (b : Buf) :
    maxPeak (Buf.mk b.sampleRate (b.data.map (fun ch => ch.map (fun x => x * f)))) =
      f * maxPeak b := by
  unfold maxPeak
  simp only
  have hgen : ∀ (chs : List (List ℚ)) (acc : ℚ),
      (chs.map (fun ch => ch.map (fun x => x * f))).foldl
        (fun acc data => data.foldl (fun m x => if |x| > m then |x| else m) acc) (f * acc) =
      f * chs.foldl
        (fun acc data => data.foldl (fun m x => if |x| > m then |x| else m) acc) acc := by
    intro chs
    induction chs with
    | nil => intro acc; rfl
    | cons ch t ih =>
      intro acc
      rw [List.map_cons, List.foldl_cons, List.foldl_cons, foldl_peak_scale f hf ch acc, ih]
  have := hgen b.data 0
  rw [mul_zero] at this
  exact this

/-- **C3**: the normalization step of `getProcessedWavBlob` scans every
channel for the peak (maximum absolute sample, attained when nonzero);
with peak 0 the buffer is left unchanged; with peak > 0 every sample of
every channel is multiplied by `0.98 / peak` and the resulting peak is
exactly `0.98` in exact arithmetic.  The export pipeline applies this
step to the offline-rendered buffer before WAV encoding. -/
theorem normalizeBuffer_spec :
    (∀ (offlineRender : Buf → Buf) (originalBuffer : Buf),
      getProcessedWavBlob offlineRender originalBuffer =
        bufferToWave (normalizeBuffer (offlineRender originalBuffer))
          (normalizeBuffer (offlineRender originalBuffer)).length) ∧
    (∀ b : Buf, ∀ ch ∈ b.data, ∀ x ∈ ch, |x| ≤ maxPeak b) ∧
    (∀ b : Buf, maxPeak b = 0 ∨ ∃ ch ∈ b.data, ∃ x ∈ ch, maxPeak b = |x|) ∧
    (∀ b : Buf, maxPeak b = 0 → normalizeBuffer b = b) ∧
    (∀ b : Buf, 0 < maxPeak b →
      (normalizeBuffer b).data =
        b.data.map (fun ch => ch.map (fun x => x * (98 / 100 / maxPeak b))) ∧
      maxPeak (normalizeBuffer b) = 98 / 100) := by
  refine ⟨fun _ _ => rfl, ?_, ?_, ?_, ?_⟩
  · intro b ch hch x hx
    exact foldl_peak2_mem_le b.data 0 ch hch x hx
  · intro b
    exact foldl_peak2_attained b.data 0
  · intro b hb
    unfold normalizeBuffer
    rw [if_neg (by rw [hb]; exact lt_irrefl 0)]
  · intro b hb
    have hf : 0 < 98 / 100 / maxPeak b := by positivity
    constructor
    · unfold normalizeBuffer
      rw [if_pos hb]
    · have hdata : normalizeBuffer b =
          Buf.mk b.sampleRate (b.data.map (fun ch => ch.map
            (fun x => x * (98 / 100 / maxPeak b)))) := by
        unfold normalizeBuffer
        rw [if_pos hb]
      rw [hdata, maxPeak_scale _ hf b, div_mul_cancel₀ _ (ne_of_gt hb)]

/-! ## C5: degenerate region is a no-op -/

/-- **C5**: when the derived frame count
`⌊regionEnd·sampleRate⌋ - ⌊regionStart·sampleRate⌋` is ≤ 0,
`renderOfflineEffect` returns the original buffer unchanged, for every
effect type and params (a value, not an error). -/
theorem renderOfflineEffect_noop (graphRender : OfflineGraph → Buf → Buf)
    (originalBuffer : Buf) (regionStart regionEnd : ℚ) (effectType : EffectType)
    (params : EffectParams)
    (h : ⌊regionEnd * (originalBuffer.sampleRate : ℚ)⌋ -
        ⌊regionStart * (originalBuffer.sampleRate : ℚ)⌋ ≤ 0) :
    renderOfflineEffect graphRender originalBuffer regionStart regionEnd effectType params =
      originalBuffer := by
  simp only [renderOfflineEffect]
  rw [if_pos h]

/-! ## C1: offline render locality -/

theorem writeAt_length (dst src : List ℚ) (off : ℕ) (h : off + src.length ≤ dst.length) :
    (writeAt dst src off).length = dst.length := by
  simp only [writeAt, List.length_append, List.length_take, List.length_drop]
  omega

theorem writeAt_getD_lt (dst src : List ℚ) (off j : ℕ) (hj : j < off)
    (hoff : off ≤ dst.length) : (writeAt dst src off).getD j 0 = dst.getD j 0 := by
  unfold writeAt
  rw [List.getD_append _ _ _ _
      (by simp only [List.length_append, List.length_take]; omega),
    List.getD_append _ _ _ _ (by simp only [List.length_take]; omega)]
  exact getD_take _ _ _ _ hj

theorem writeAt_getD_ge (dst src : List ℚ) (off j : ℕ) (hj : off + src.length ≤ j)
    (hoff : off ≤ dst.length) : (writeAt dst src off).getD j 0 = dst.getD j 0 := by
  unfold writeAt
  have hlen : (dst.take off ++ src).length = off + src.length := by
    simp only [List.length_append, List.length_take]
    omega
  rw [List.getD_append_right _ _ _ _ (by rw [hlen]; omega), hlen, getD_drop]
  congr 1
  omega

/-- **C1**: for a well-formed source buffer, a region
`[regionStart, regionEnd)` with nonnegative start, a positive frame
count and an end frame within the buffer, and any effect type and
params, `renderOfflineEffect` (with the offline graph render opaque but
shape-preserving) returns a full-length buffer in which every sample at
a frame index outside `[⌊regionStart·sr⌋, ⌊regionEnd·sr⌋)` equals the
corresponding source sample, on every channel; the source buffer is a
separate unmodified value. -/
theorem renderOfflineEffect_locality (graphRender : OfflineGraph → Buf → Buf)
    (originalBuffer : Buf) (regionStart regionEnd : ℚ) (effectType : EffectType)
    (params : EffectParams) (N : ℕ)
    (hWF : ∀ ch ∈ originalBuffer.data, ch.length = N)
    (hrs : 0 ≤ regionStart)
    (hpos : 0 < ⌊regionEnd * (originalBuffer.sampleRate : ℚ)⌋ -
      ⌊regionStart * (originalBuffer.sampleRate : ℚ)⌋)
    (hend : ⌊regionEnd * (originalBuffer.sampleRate : ℚ)⌋ ≤ (N : ℤ))
    (hshape : ∀ (g : OfflineGraph) (clip : Buf),
      (graphRender g clip).data.map List.length = clip.data.map List.length) :
    (renderOfflineEffect graphRender originalBuffer regionStart regionEnd effectType
        params).sampleRate = originalBuffer.sampleRate ∧
    (renderOfflineEffect graphRender originalBuffer regionStart regionEnd effectType
        params).data.length = originalBuffer.data.length ∧
    (∀ c < originalBuffer.data.length,
      ((renderOfflineEffect graphRender originalBuffer regionStart regionEnd effectType
        params).data.getD c []).length = N) ∧
    (∀ c < originalBuffer.data.length, ∀ j < N,
      (j < (⌊regionStart * (originalBuffer.sampleRate : ℚ)⌋).toNat ∨
        (⌊regionEnd * (originalBuffer.sampleRate : ℚ)⌋).toNat ≤ j) →
      ((renderOfflineEffect graphRender originalBuffer regionStart regionEnd effectType
        params).data.getD c []).getD j 0 =
        (originalBuffer.data.getD c []).getD j 0) := by
  have hfa : (0 : ℤ) ≤ ⌊regionStart * (originalBuffer.sampleRate : ℚ)⌋ :=
    Int.floor_nonneg.mpr (mul_nonneg hrs (by positivity))
  set sfZ := ⌊regionStart * (originalBuffer.sampleRate : ℚ)⌋ with hsfZ
  set efZ := ⌊regionEnd * (originalBuffer.sampleRate : ℚ)⌋ with hefZ
  have hsfef : sfZ.toNat < efZ.toNat := by omega
  have hefN : efZ.toNat ≤ N := by omega
  have hlfeq : efZ.toNat - sfZ.toNat = (efZ - sfZ).toNat := by omega
  have hne : ¬(efZ - sfZ ≤ 0) := by omega
  have hres : renderOfflineEffect graphRender originalBuffer regionStart regionEnd effectType
      params = Buf.mk originalBuffer.sampleRate
      ((List.range originalBuffer.data.length).map (fun c =>
        writeAt (originalBuffer.data.getD c [])
          ((if effectType = .bitcrush then
              applyMathBitcrush (graphRender (buildOfflineGraph effectType params)
                (extractClip originalBuffer sfZ.toNat efZ.toNat (efZ - sfZ).toNat))
                (jsOrZ params.bits 8) (jsOrQ params.normFreq (1/2))
            else graphRender (buildOfflineGraph effectType params)
              (extractClip originalBuffer sfZ.toNat efZ.toNat (efZ - sfZ).toNat)).data.getD c [])
          sfZ.toNat)) := by
    simp only [renderOfflineEffect, Buf.numberOfChannels, ← hsfZ, ← hefZ]
    rw [if_neg hne]
  have htemplen : ∀ c < originalBuffer.data.length,
      ((extractClip originalBuffer sfZ.toNat efZ.toNat (efZ - sfZ).toNat).data.getD c []).length =
        (efZ - sfZ).toNat := by
    intro c hc
    show ((originalBuffer.data.map _).getD c []).length = _
    rw [getD_map_of_lt _ _ _ hc _ []]
    simp only [List.length_append, List.length_take, List.length_drop, List.length_replicate]
    omega
  have htempnum : (extractClip originalBuffer sfZ.toNat efZ.toNat (efZ - sfZ).toNat).data.length =
      originalBuffer.data.length := by
    simp [extractClip]
  have hrendlen : ∀ c < originalBuffer.data.length,
      ((graphRender (buildOfflineGraph effectType params)
        (extractClip originalBuffer sfZ.toNat efZ.toNat (efZ - sfZ).toNat)).data.getD c []).length =
        (efZ - sfZ).toNat := by
    intro c hc
    have h1 := getD_map_length (graphRender (buildOfflineGraph effectType params)
      (extractClip originalBuffer sfZ.toNat efZ.toNat (efZ - sfZ).toNat)).data c
    rw [hshape] at h1
    rw [getD_map_length] at h1
    rw [← h1]
    exact htemplen c hc
  have hrendnum : (graphRender (buildOfflineGraph effectType params)
      (extractClip originalBuffer sfZ.toNat efZ.toNat (efZ - sfZ).toNat)).data.length =
      originalBuffer.data.length := by
    have h1 : ((graphRender (buildOfflineGraph effectType params)
        (extractClip originalBuffer sfZ.toNat efZ.toNat (efZ - sfZ).toNat)).data.map
          List.length).length =
        ((extractClip originalBuffer sfZ.toNat efZ.toNat (efZ - sfZ).toNat).data.map
          List.length).length := by
      rw [hshape]
    simpa [htempnum] using h1
  have hproc : ∀ c < originalBuffer.data.length,
      (((if effectType = .bitcrush then
          applyMathBitcrush (graphRender (buildOfflineGraph effectType params)
            (extractClip originalBuffer sfZ.toNat efZ.toNat (efZ - sfZ).toNat))
            (jsOrZ params.bits 8) (jsOrQ params.normFreq (1/2))
        else graphRender (buildOfflineGraph effectType params)
          (extractClip originalBuffer sfZ.toNat efZ.toNat (efZ - sfZ).toNat)) : Buf).data.getD
            c []).length = (efZ - sfZ).toNat := by
    intro c hc
    by_cases hbc : effectType = .bitcrush
    · rw [if_pos hbc]
      show (((graphRender (buildOfflineGraph effectType params)
          (extractClip originalBuffer sfZ.toNat efZ.toNat (efZ - sfZ).toNat)).data.map
            _).getD c []).length = _
      rw [getD_map_of_lt _ _ _ (by rw [hrendnum]; exact hc) _ []]
      rw [bitcrushGo_length]
      exact hrendlen c hc
    · rw [if_neg hbc]
      exact hrendlen c hc
  rw [hres]
  refine ⟨rfl, by simp, ?_, ?_⟩
  · intro c hc
    show (((List.range originalBuffer.data.length).map _).getD c []).length = N
    rw [getD_range_map _ _ _ hc]
    have hdst : (originalBuffer.data.getD c []).length = N := hWF _ (getD_mem _ _ _ hc)
    rw [writeAt_length _ _ _ (by rw [hproc c hc, hdst]; omega), hdst]
  · intro c hc j hj hside
    show (((List.range originalBuffer.data.length).map _).getD c []).getD j 0 = _
    rw [getD_range_map _ _ _ hc]
    have hdst : (originalBuffer.data.getD c []).length = N := hWF _ (getD_mem _ _ _ hc)
    rcases hside with h | h
    · exact writeAt_getD_lt _ _ _ _ h (by rw [hdst]; omega)
    · exact writeAt_getD_ge _ _ _ _ (by rw [hproc c hc]; omega) (by rw [hdst]; omega)

/-! ## C10: delay parameter falsy fallback -/

/-- **C10**: in the delay branch of `renderOfflineEffect`, the delay
time and feedback gain fall back to their defaults by JS falsiness: a
truthy `params.time`/`params.feedback` is used as-is, while `undefined`
*or the legitimate value 0* yields 0.3 s delay time resp. 0.5 feedback
gain; consequently rendering with `feedback = 0` (resp. `time = 0`) is
indistinguishable from rendering with `feedback = 0.5` (resp.
`time = 0.3`), for every buffer, region and graph renderer. -/
theorem delay_falsy_defaults :
    (∀ (params : EffectParams) (t : ℚ), params.time = some t → t ≠ 0 →
      buildOfflineGraph EffectType.delay params =
        OfflineGraph.delay t (jsOrQ params.feedback (1/2))) ∧
    (∀ params : EffectParams, params.time = some 0 ∨ params.time = none →
      buildOfflineGraph EffectType.delay params =
        OfflineGraph.delay (3/10) (jsOrQ params.feedback (1/2))) ∧
    (∀ (params : EffectParams) (f : ℚ), params.feedback = some f → f ≠ 0 →
      buildOfflineGraph EffectType.delay params =
        OfflineGraph.delay (jsOrQ params.time (3/10)) f) ∧
    (∀ params : EffectParams, params.feedback = some 0 ∨ params.feedback = none →
      buildOfflineGraph EffectType.delay params =
        OfflineGraph.delay (jsOrQ params.time (3/10)) (1/2)) ∧
    (∀ (graphRender : OfflineGraph → Buf → Buf) (originalBuffer : Buf)
        (regionStart regionEnd : ℚ) (params : EffectParams),
      params.feedback = some 0 →
      renderOfflineEffect graphRender originalBuffer regionStart regionEnd
          EffectType.delay params =
        renderOfflineEffect graphRender originalBuffer regionStart regionEnd
          EffectType.delay { params with feedback := some (1/2) }) ∧
    (∀ (graphRender : OfflineGraph → Buf → Buf) (originalBuffer : Buf)
        (regionStart regionEnd : ℚ) (params : EffectParams),
      params.time = some 0 →
      renderOfflineEffect graphRender originalBuffer regionStart regionEnd
          EffectType.delay params =
        renderOfflineEffect graphRender originalBuffer regionStart regionEnd
          EffectType.delay { params with time := some (3/10) }) := by
  have hbuild : ∀ params : EffectParams, buildOfflineGraph EffectType.delay params =
      OfflineGraph.delay (jsOrQ params.time (3/10)) (jsOrQ params.feedback (1/2)) :=
    fun _ => rfl
  refine ⟨?_, ?_, ?_, ?_, ?_, ?_⟩
  · intro params t ht htne
    rw [hbuild, ht]
    simp [jsOrQ, htne]
  · intro params ht
    rcases ht with ht | ht <;> rw [hbuild, ht] <;> simp [jsOrQ]
  · intro params f hf hfne
    rw [hbuild, hf]
    simp [jsOrQ, hfne]
  · intro params hf
    rcases hf with hf | hf <;> rw [hbuild, hf] <;> simp [jsOrQ]
  · intro graphRender originalBuffer regionStart regionEnd params hf
    have hg : buildOfflineGraph EffectType.delay params =
        buildOfflineGraph EffectType.delay { params with feedback := some (1/2) } := by
      simp [buildOfflineGraph, jsOrQ, hf]
    simp only [renderOfflineEffect, hg]
  · intro graphRender originalBuffer regionStart regionEnd params ht
    have hg : buildOfflineGraph EffectType.delay params =
        buildOfflineGraph EffectType.delay { params with time := some (3/10) } := by
      simp [buildOfflineGraph, jsOrQ, ht]
    simp only [renderOfflineEffect, hg]

/-! ## C9: freeze-time local gain -/

theorem applyGainGo_length (vol : ℚ) (s e : ℤ) :
    ∀ (d : List ℚ) (i : ℕ), (applyGainGo vol s e i d).length = d.length := by
  intro d
  induction d with
  | nil => intro i; rfl
  | cons x rest ih => intro i; simp [applyGainGo, ih]

theorem applyGainGo_getD (vol : ℚ) (s e : ℤ) :
    ∀ (d : List ℚ) (i j : ℕ), j < d.length →
      (applyGainGo vol s e i d).getD j 0 =
        if s ≤ ((i + j : ℕ) : ℤ) ∧ ((i + j : ℕ) : ℤ) < e
        then d.getD j 0 * vol else d.getD j 0 := by
  intro d
  induction d with
  | nil => intro i j hj; simp at hj
  | cons x rest ih =>
    intro i j hj
    cases j with
    | zero => simp [applyGainGo]
    | succ j =>
      have : (applyGainGo vol s e i (x :: rest)).getD (j + 1) 0 =
          (applyGainGo vol s e (i + 1) rest).getD j 0 := by
        simp only [applyGainGo, List.getD_cons_succ]
      rw [this, ih (i + 1) j (by simpa using hj)]
      have harith : i + 1 + j = i + (j + 1) := by omega
      rw [harith, List.getD_cons_succ]

/-- **C9**: in the freeze path, when a preview volume `vol ≠ 1` was set,
every sample of the rendered buffer at a frame index in
`[⌊regionStart·sampleRate⌋, min(⌊regionEnd·sampleRate⌋, channel length))`
is multiplied by `vol` (direct sample multiplication on every channel),
and every sample outside those bounds is left unscaled. -/
theorem applyLocalGain_spec (newBuffer : Buf) (volume : Option ℚ) (vol : ℚ)
    (regionStart regionEnd : ℚ) (hv : volume = some vol) (hv1 : vol ≠ 1) :
    (applyLocalGain newBuffer volume regionStart regionEnd).sampleRate =
      newBuffer.sampleRate ∧
    (applyLocalGain newBuffer volume regionStart regionEnd).data.length =
      newBuffer.data.length ∧
    ∀ c < newBuffer.data.length,
      ((applyLocalGain newBuffer volume regionStart regionEnd).data.getD c []).length =
        (newBuffer.data.getD c []).length ∧
      ∀ i < (newBuffer.data.getD c []).length,
        ((⌊regionStart * (newBuffer.sampleRate : ℚ)⌋ ≤ (i : ℤ) ∧
            (i : ℤ) < ⌊regionEnd * (newBuffer.sampleRate : ℚ)⌋) →
          ((applyLocalGain newBuffer volume regionStart regionEnd).data.getD c []).getD i 0 =
            (newBuffer.data.getD c []).getD i 0 * vol) ∧
        (¬(⌊regionStart * (newBuffer.sampleRate : ℚ)⌋ ≤ (i : ℤ) ∧
            (i : ℤ) < ⌊regionEnd * (newBuffer.sampleRate : ℚ)⌋) →
          ((applyLocalGain newBuffer volume regionStart regionEnd).data.getD c []).getD i 0 =
            (newBuffer.data.getD c []).getD i 0) := by
  subst hv
  have hdata : (applyLocalGain newBuffer (some vol) regionStart regionEnd).data =
      newBuffer.data.map (applyGainGo vol ⌊regionStart * (newBuffer.sampleRate : ℚ)⌋
        ⌊regionEnd * (newBuffer.sampleRate : ℚ)⌋ 0) := rfl
  refine ⟨rfl, by rw [hdata]; simp, ?_⟩
  intro c hc
  have hget : (applyLocalGain newBuffer (some vol) regionStart regionEnd).data.getD c [] =
      applyGainGo vol ⌊regionStart * (newBuffer.sampleRate : ℚ)⌋
        ⌊regionEnd * (newBuffer.sampleRate : ℚ)⌋ 0 (newBuffer.data.getD c []) := by
    rw [hdata]
    exact getD_map_of_lt _ _ _ hc _ []
  refine ⟨by rw [hget]; exact applyGainGo_length _ _ _ _ _, ?_⟩
  intro i hi
  rw [hget, applyGainGo_getD _ _ _ _ 0 i hi]
  simp only [Nat.zero_add]
  constructor
  · intro hcond
    rw [if_pos hcond]
  · intro hcond
    rw [if_neg hcond]

/-! ## Witnesses: each claim theorem applied at a concrete input -/

/-- Witness for C1 at a 1-channel 4-frame buffer, region `[1s, 3s)` at
1 Hz and an identity graph renderer: the sample at frame 3 (outside the
region) is unchanged. -/
theorem renderOfflineEffect_locality_witness :
    (∀ ch ∈ [[(1 : ℚ), 2, 3, 4]], ch.length = 4) ∧
    ((0 : ℚ) ≤ 1) ∧
    (0 < ⌊(3 : ℚ) * ((1 : ℕ) : ℚ)⌋ - ⌊(1 : ℚ) * ((1 : ℕ) : ℚ)⌋) ∧
    (⌊(3 : ℚ) * ((1 : ℕ) : ℚ)⌋ ≤ ((4 : ℕ) : ℤ)) ∧
    ((renderOfflineEffect (fun _ b => b) (Buf.mk 1 [[(1 : ℚ), 2, 3, 4]]) 1 3
      EffectType.distortion {}).data.getD 0 []).getD 3 0 =
      (((Buf.mk 1 [[(1 : ℚ), 2, 3, 4]]).data.getD 0 []).getD 3 0) :=
  ⟨by decide, by decide, by norm_num, by norm_num,
    (renderOfflineEffect_locality (fun _ b => b) (Buf.mk 1 [[(1 : ℚ), 2, 3, 4]]) 1 3
      EffectType.distortion {} 4 (by decide) (by decide) (by norm_num [Buf.sampleRate])
      (by norm_num [Buf.sampleRate]) (fun _ _ => rfl)).2.2.2 0 (by decide) 3 (by decide)
      (Or.inr (by norm_num [Buf.sampleRate]))⟩

/-- Witness for C2 at `bits = 2`, `normFreq = 1/2` on a 3-frame channel:
the quantized frame 0 is held at frame 1. -/
theorem applyMathBitcrush_spec_witness :
    (0 : ℚ) < 1 / 2 ∧ (1 / 2 : ℚ) ≤ 1 ∧
    ((applyMathBitcrush (Buf.mk 1 [[(1 : ℚ) / 2, 1 / 2, 1 / 4]]) 2 (1 / 2)).data.getD
        0 []).getD (0 + 1) 0 =
      ((applyMathBitcrush (Buf.mk 1 [[(1 : ℚ) / 2, 1 / 2, 1 / 4]]) 2 (1 / 2)).data.getD
        0 []).getD 0 0 :=
  ⟨by norm_num, by norm_num,
    ((applyMathBitcrush_spec (Buf.mk 1 [[(1 : ℚ) / 2, 1 / 2, 1 / 4]]) 2 (1 / 2)
      (by norm_num) (by norm_num)).2.2 0 (by decide)).2.2 0 (by norm_num) 1
      (by norm_num) (by decide)⟩

/-- Witness for C3, the spec's scenario: a buffer peaking at `1/2`
normalizes to a peak of exactly `0.98`. -/
theorem normalizeBuffer_spec_witness :
    0 < maxPeak (Buf.mk 44100 [[(1 : ℚ) / 2, 1 / 4]]) ∧
    maxPeak (normalizeBuffer (Buf.mk 44100 [[(1 : ℚ) / 2, 1 / 4]])) = 98 / 100 :=
  ⟨by
    norm_num [maxPeak]
    rw [abs_of_pos (by norm_num : (0 : ℚ) < 1 / 2),
      abs_of_pos (by norm_num : (0 : ℚ) < 1 / 4)]
    norm_num,
    (normalizeBuffer_spec.2.2.2.2 (Buf.mk 44100 [[(1 : ℚ) / 2, 1 / 4]]) (by
      norm_num [maxPeak]
      rw [abs_of_pos (by norm_num : (0 : ℚ) < 1 / 2),
        abs_of_pos (by norm_num : (0 : ℚ) < 1 / 4)]
      norm_num)).2⟩

/-- Witness for C4 on a 1-channel 2-frame buffer with `len = 0` (falsy,
so the buffer length 2 is used): the data-size field holds
`2 · 1 · 2 = 4`. -/
theorem bufferToWave_spec_witness :
    ((if (0 : ℕ) = 0 then (Buf.mk 8000 [[(1 : ℚ) / 2, -1]]).length else 0) = 2) ∧
    readU32 (bufferToWave (Buf.mk 8000 [[(1 : ℚ) / 2, -1]]) 0) 40 =
      (2 * 1 * 2) % 4294967296 :=
  ⟨by decide,
    (bufferToWave_spec (Buf.mk 8000 [[(1 : ℚ) / 2, -1]]) 0 2
      (by decide)).2.2.2.2.2.2.2.2.1⟩

/-- Witness for C5: a collapsed region `[1s, 1s)` leaves the buffer
untouched. -/
theorem renderOfflineEffect_noop_witness :
    (⌊(1 : ℚ) * ((1 : ℕ) : ℚ)⌋ - ⌊(1 : ℚ) * ((1 : ℕ) : ℚ)⌋ ≤ 0) ∧
    renderOfflineEffect (fun _ b => b) (Buf.mk 1 [[(1 : ℚ), 2]]) 1 1
      EffectType.delay {} = Buf.mk 1 [[(1 : ℚ), 2]] :=
  ⟨by norm_num,
    renderOfflineEffect_noop (fun _ b => b) (Buf.mk 1 [[(1 : ℚ), 2]]) 1 1
      EffectType.delay {} (by norm_num [Buf.sampleRate])⟩

/-- Witness for C6: slicing `(0, 1)` of a 4-frame buffer returns the
identical buffer. -/
theorem sliceBuffer_spec_witness :
    (∀ ch ∈ [[(1 : ℚ), 2, 3, 4]], ch.length = 4) ∧
    (Buf.mk 10 [[(1 : ℚ), 2, 3, 4]]).length = 4 ∧
    ((0 : ℚ) ≤ 0) ∧ ((0 : ℚ) < 1) ∧ ((1 : ℚ) ≤ 1) ∧
    sliceBuffer (Buf.mk 10 [[(1 : ℚ), 2, 3, 4]]) 0 1 =
      some (Buf.mk 10 [[(1 : ℚ), 2, 3, 4]]) :=
  ⟨by decide, by decide, by decide, by decide, by decide,
    (sliceBuffer_spec (Buf.mk 10 [[(1 : ℚ), 2, 3, 4]]) 4 0 1 (by decide) (by decide)
      (by decide) (by decide) (by decide)).2.2 (by decide)⟩

/-- Witness for C7: reversing `[0s, 1s)` twice at 2 Hz restores a
3-frame buffer. -/
theorem reverseRange_involution_witness :
    ((0 : ℚ) ≤ 0) ∧ ((0 : ℚ) < 1) ∧
    reverseRange (reverseRange (Buf.mk 2 [[(1 : ℚ), 2, 3]]) 0 1) 0 1 =
      Buf.mk 2 [[(1 : ℚ), 2, 3]] :=
  ⟨by decide, by decide,
    (reverseRange_involution (Buf.mk 2 [[(1 : ℚ), 2, 3]]) 0 1 (by decide) (by decide)).1⟩

/-- Witness for C8 at `amount = 0`: the table has 44100 entries. -/
theorem makeDistortionCurve_spec_witness :
    (makeDistortionCurve (some 0)).length = 44100 :=
  (makeDistortionCurve_spec 0).1

/-- Witness for C9: volume `1/2` over region `[0s, 1s)` at 1 Hz scales
frame 0 of a 2-frame channel. -/
theorem applyLocalGain_spec_witness :
    (some ((1 : ℚ) / 2) = some ((1 : ℚ) / 2)) ∧ ((1 : ℚ) / 2 ≠ 1) ∧
    ((applyLocalGain (Buf.mk 1 [[(2 : ℚ), 3]]) (some (1 / 2)) 0 1).data.getD 0 []).getD
        0 0 =
      ((Buf.mk 1 [[(2 : ℚ), 3]]).data.getD 0 []).getD 0 0 * (1 / 2) :=
  ⟨rfl, by norm_num,
    (((applyLocalGain_spec (Buf.mk 1 [[(2 : ℚ), 3]]) (some (1 / 2)) (1 / 2) 0 1 rfl
      (by norm_num)).2.2 0 (by decide)).2 0 (by decide)).1
      (by norm_num [Buf.sampleRate])⟩

/-- Witness for C10: `params.feedback = some 0` yields the delay graph
with feedback gain `0.5` and default delay time `0.3`. -/
theorem delay_falsy_defaults_witness :
    buildOfflineGraph EffectType.delay { feedback := some 0 } =
      OfflineGraph.delay (3 / 10) (1 / 2) :=
  delay_falsy_defaults.2.2.2.1 { feedback := some 0 } (Or.inl rfl)

end Soundealer
